import Mathlib

/-!
Shallow embedding of the GreenCloud file server core, translated from the
Go source: the throughput-gated `HedgingReader` (reader.go), the hedged
fetch orchestrator and coalesced miss path of `FileHandler` (cache.go:
`doRead`, `readHedged`, `ServeHTTP`), and the LRU `MemoryCache`
(cache.go).  Durations are rational numbers of seconds, `float64` speed
arithmetic is modelled as exact rational arithmetic, byte counts are
naturals, Go `int64` byte accounting is modelled as integers.
-/

/-- The error values that can flow through a fetch: `io.EOF`, the two
kinds of `os.Open` / read failures (`notFound`, `ioErr`), the reader's
`ErrTooSlow` sentinel (reader.go line 10) and a context cancellation
error. -/
inductive Err
  | eof
  | notFound
  | ioErr
  | tooSlow
  | cancelled
deriving DecidableEq, Repr

/-- reader.go line 47: the speed computed on a read call,
`(float64(r.bytesRead) * 8) / (1024 * 1024 * elapsed.Seconds())`,
in Mbps with `elapsed` the seconds since the session started. -/
def speedMbps (bytesRead : ℕ) (elapsed : ℚ) : ℚ :=
  ((bytesRead : ℚ) * 8) / (1024 * 1024 * elapsed)

/-- reader.go lines 13-21: the state a `HedgingReader` carries across
`Read` calls.  `startTime` is left implicit: every call receives the
elapsed time since the session began. -/
structure HedgingReader where
  bytesRead : ℕ
  checkTime : ℚ
  minSpeed : ℚ
deriving DecidableEq, Repr

/-- One call of `HedgingReader.Read` (reader.go lines 32-57).  `ctxDone`
says whether `r.ctx.Err()` is non-nil at this call; `n` and `uerr` are
what the wrapped `r.file.Read(p)` returns; `elapsed` is
`time.Since(r.startTime)` in seconds at the speed check.  The result is
the `(n, err)` pair the call returns together with the updated reader. -/
def HedgingReader.Read (r : HedgingReader) (ctxDone : Bool) (n : ℕ)
    (uerr : Option Err) (elapsed : ℚ) : (ℕ × Option Err) × HedgingReader :=
  if ctxDone then ((0, some .cancelled), r)
  else
    let r2 : HedgingReader := { r with bytesRead := r.bytesRead + n }
    if r.checkTime ≤ elapsed ∧ speedMbps r2.bytesRead elapsed < r.minSpeed then
      ((n, some .tooSlow), r2)
    else
      ((n, uerr), r2)

/-- One underlying read of the byte source: at elapsed time `t` (seconds
since the attempt's session began) it yields `n` bytes and error `uerr`.
For a real file `uerr` is `none`, `some .eof` or `some .ioErr`. -/
structure SrcEvent where
  t : ℚ
  n : ℕ
  uerr : Option Err
deriving DecidableEq, Repr

/-- Whether the request context is already cancelled at time `t`:
`cancelAt = some c` means the context is done from time `c` on. -/
def ctxDoneAt (cancelAt : Option ℚ) (t : ℚ) : Bool :=
  match cancelAt with
  | none => false
  | some c => decide (c ≤ t)

/-- The read loop of `FileHandler.doRead` (cache.go, loop of lines
219-236): at each iteration check `ctx.Err()`, read one chunk (through
the `HedgingReader` when `guard` is true, straight from the file
otherwise), accumulate the bytes into the buffer, break on `io.EOF`
returning the accumulated byte count, and return any other error as is.
`none` means the event trace ended before the loop did (a real source
always ends its trace with `io.EOF` or an error). -/
def readLoop (guard : Bool) (cancelAt : Option ℚ) :
    HedgingReader → List SrcEvent → Option (Except Err ℕ)
  | _, [] => none
  | r, e :: rest =>
    if ctxDoneAt cancelAt e.t then some (.error .cancelled)
    else
      let step :=
        if guard then HedgingReader.Read r false e.n e.uerr e.t
        else ((e.n, e.uerr), { r with bytesRead := r.bytesRead + e.n })
      match step.1.2 with
      | none => readLoop guard cancelAt step.2 rest
      | some .eof => some (.ok step.2.bytesRead)
      | some err => some (.error err)

/-- A byte source as `os.Open` plus the reads deliver it: `openErr` is
the outcome of `os.Open` (`none` = opened), `events` the successive
chunk reads. -/
structure Source where
  openErr : Option Err
  events : List SrcEvent
deriving DecidableEq, Repr

/-- `FileHandler.doRead` (cache.go lines 204-237): open the source
(returning an open failure as is), wrap it in a fresh `HedgingReader`
when `useSpeedLimit` is set, and run the read loop.  The successful
value is the byte count of the returned buffer. -/
def doRead (cancelAt : Option ℚ) (checkTime minSpeed : ℚ)
    (useSpeedLimit : Bool) (src : Source) : Option (Except Err ℕ) :=
  match src.openErr with
  | some e => some (.error e)
  | none => readLoop useSpeedLimit cancelAt ⟨0, checkTime, minSpeed⟩ src.events

/-- The observable actions of `readHedged`, recorded so that attempt
counts and their order can be stated. -/
inductive HedgeStep
  | openFirst
  | sleep (d : ℚ)
  | openSecond
deriving DecidableEq, Repr

/-- `FileHandler.readHedged` (cache.go lines 183-202), instrumented with
the list of actions it performs: a guarded first attempt; only when it
returns `ErrTooSlow`, `time.Sleep(h.hedgedDelay)` and one unguarded
second attempt whose result is final; any other first outcome is
returned unchanged. -/
def readHedged (cancelAt : Option ℚ) (checkTime minSpeed hedgedDelay : ℚ)
    (first second : Source) : Option (Except Err ℕ) × List HedgeStep :=
  match doRead cancelAt checkTime minSpeed true first with
  | some (.error .tooSlow) =>
    (doRead cancelAt checkTime minSpeed false second,
      [.openFirst, .sleep hedgedDelay, .openSecond])
  | r => (r, [.openFirst])

/-- The cache-miss path of `FileHandler.ServeHTTP` (cache.go lines
147-150): `h.sfGroup.Do(filePath, ...)` runs
`h.readHedged(r.Context(), filePath)` once and the singleflight library
hands the one result to every concurrent waiter for that key.  The
closure captures the initiating request's context, modelled by
`initCancelAt`. -/
def coalescedFetch (initCancelAt : Option ℚ)
    (checkTime minSpeed hedgedDelay : ℚ) (first second : Source)
    (waiters : ℕ) : List (Option (Except Err ℕ)) :=
  List.replicate waiters
    (readHedged initCancelAt checkTime minSpeed hedgedDelay first second).1

instance {ε α : Type} [DecidableEq ε] [DecidableEq α] :
    DecidableEq (Except ε α) := fun a b =>
  match a, b with
  | .ok x, .ok y => decidable_of_iff (x = y) (by simp)
  | .ok _, .error _ => .isFalse (by simp)
  | .error _, .ok _ => .isFalse (by simp)
  | .error x, .error y => decidable_of_iff (x = y) (by simp)

/-- The LRU cache entries, cache.go lines 9-12.  Payload bytes are
modelled as a list of naturals. -/
structure CacheItem where
  Key : String
  Data : List ℕ
deriving DecidableEq, Repr

/-- `MemoryCache` (cache.go lines 15-21).  The doubly linked recency
list `ll` and the index map `cache` are represented together by one list
of items, most recently used first; the map is the positions of the
keys in that list.  `maxBytes`/`usedBytes` are Go `int64`. -/
structure MemoryCache where
  maxBytes : ℤ
  usedBytes : ℤ
  ll : List CacheItem
deriving DecidableEq, Repr

/-- `NewMemoryCache` (cache.go lines 24-31): empty cache with the given
budget. -/
def NewMemoryCache (maxBytes : ℤ) : MemoryCache :=
  ⟨maxBytes, 0, []⟩

/-- The combined map lookup and list unlink that `Get`/`Set` perform:
find the first item with the given key and return it together with the
rest of the recency list in order (so `MoveToFront` is consing the item
back on).  `none` when the key is absent. -/
def getLoop : List CacheItem → String → Option (CacheItem × List CacheItem)
  | [], _ => none
  | it :: rest, key =>
    if it.Key = key then some (it, rest)
    else
      match getLoop rest key with
      | some (f, rest2) => some (f, it :: rest2)
      | none => none

/-- `MemoryCache.Get` (cache.go lines 34-43): on a hit move the element
to the front and return its data; on a miss return nothing and leave
the cache unchanged. -/
def MemoryCache.Get (c : MemoryCache) (key : String) :
    Option (List ℕ) × MemoryCache :=
  match getLoop c.ll key with
  | some (it, rest) => (some it.Data, { c with ll := it :: rest })
  | none => (none, c)

/-- The eviction loop of `MemoryCache.evict` (cache.go lines 78-88) run
on the reversed recency list (so that the list head is the oldest
`ll.Back()` element): while `usedBytes > maxBytes` and elements remain,
drop the oldest element and subtract its size. -/
def evictRev (maxBytes : ℤ) : ℤ → List CacheItem → ℤ × List CacheItem
  | used, [] => (used, [])
  | used, it :: rest =>
    if used > maxBytes then evictRev maxBytes (used - it.Data.length) rest
    else (used, it :: rest)

/-- `MemoryCache.evict` (cache.go lines 78-88). -/
def MemoryCache.evict (c : MemoryCache) : MemoryCache :=
  let p := evictRev c.maxBytes c.usedBytes c.ll.reverse
  { c with usedBytes := p.1, ll := p.2.reverse }

/-- `MemoryCache.Set` (cache.go lines 47-74): a payload larger than the
budget is not cached at all; an existing key is moved to the front, its
data replaced and the byte accounting adjusted; a new key is pushed to
the front; either way eviction runs afterwards. -/
def MemoryCache.Set (c : MemoryCache) (key : String) (data : List ℕ) :
    MemoryCache :=
  if (data.length : ℤ) > c.maxBytes then c
  else
    match getLoop c.ll key with
    | some (old, rest) =>
      MemoryCache.evict
        { c with
          ll := ⟨key, data⟩ :: rest
          usedBytes := c.usedBytes - old.Data.length + data.length }
    | none =>
      MemoryCache.evict
        { c with
          ll := ⟨key, data⟩ :: c.ll
          usedBytes := c.usedBytes + data.length }

/-- Sum of the stored payload sizes, the value `usedBytes` accounts. -/
def llSize (ll : List CacheItem) : ℤ :=
  (ll.map fun it => (it.Data.length : ℤ)).sum

/-- The cache state invariant of the spec: `usedBytes` equals the sum of
the entry sizes, `usedBytes` is within the budget, and the keys of the
recency list are pairwise distinct (index and recency order are in
bijection). -/
def CacheInv (c : MemoryCache) : Prop :=
  c.usedBytes = llSize c.ll ∧ c.usedBytes ≤ c.maxBytes ∧
    (c.ll.map fun it => it.Key).Nodup

/-- A client operation on the cache. -/
inductive CacheOp
  | get (key : String)
  | set (key : String) (data : List ℕ)
deriving DecidableEq, Repr

/-- Run a sequence of operations left to right. -/
def runOps (c : MemoryCache) : List CacheOp → MemoryCache
  | [] => c
  | .get k :: rest => runOps (c.Get k).2 rest
  | .set k d :: rest => runOps (c.Set k d) rest

/-- The most recent `set` for a key in an operation sequence, read off
the claim's words ("its most recent Set"), regardless of payload size. -/
def lastSet : List CacheOp → String → Option (List ℕ)
  | [], _ => none
  | op :: rest, k =>
    match lastSet rest k with
    | some d => some d
    | none =>
      match op with
      | .set k2 d => if k2 = k then some d else none
      | .get _ => none

/-- The most recent `set` for a key whose payload fits the budget
(oversize `set`s are no-ops and leave the previous binding in place). -/
def lastFittingSet (B : ℤ) : List CacheOp → String → Option (List ℕ)
  | [], _ => none
  | op :: rest, k =>
    match lastFittingSet B rest k with
    | some d => some d
    | none =>
      match op with
      | .set k2 d => if k2 = k ∧ (d.length : ℤ) ≤ B then some d else none
      | .get _ => none

/-- Total number of bytes delivered by a list of source events. -/
def sumN (es : List SrcEvent) : ℕ :=
  (es.map fun e => e.n).sum

/-- A trace a real file can produce: the sentinel `ErrTooSlow` is only
ever created by the gated reader, never returned by `file.Read`. -/
def WFTrace (es : List SrcEvent) : Prop :=
  ∀ e ∈ es, e.uerr ≠ some Err.tooSlow

instance (es : List SrcEvent) : Decidable (WFTrace es) := by
  unfold WFTrace; infer_instance

/-- The cache agrees with an abstract key-value map: every retained
entry is bound to its data. -/
def Agree (c : MemoryCache) (σ : String → Option (List ℕ)) : Prop :=
  ∀ it ∈ c.ll, σ it.Key = some it.Data

/-- Abstract effect of one `Set`: a payload within the budget binds the
key, an oversize payload changes nothing. -/
def setModel (B : ℤ) (σ : String → Option (List ℕ)) (key : String)
    (data : List ℕ) : String → Option (List ℕ) :=
  fun k => if key = k ∧ (data.length : ℤ) ≤ B then some data else σ k

/-- Abstract effect of an operation sequence on the key-value map. -/
def runModel (B : ℤ) (σ : String → Option (List ℕ)) :
    List CacheOp → String → Option (List ℕ)
  | [] => σ
  | .get _ :: rest => runModel B σ rest
  | .set k d :: rest => runModel B (setModel B σ k d) rest

/-- A healthy source: it opens, delivers 2 MiB within the first half
second (an average of 8 Mbps over a 2-second session) and reaches
end-of-data at elapsed time 2. -/
def srcOK : Source :=
  ⟨none, [⟨1/2, 2097152, none⟩, ⟨2, 0, some .eof⟩]⟩

/-- An error coming out of the unguarded read loop is either the context
cancellation error or an error the source itself returned. -/
theorem readLoop_unguarded_error (cancelAt : Option ℚ) :
    ∀ (es : List SrcEvent) (r : HedgingReader) (e : Err),
      readLoop false cancelAt r es = some (.error e) →
      e = Err.cancelled ∨ ∃ ev ∈ es, ev.uerr = some e := by
  intro es
  induction es with
  | nil => intro r e h; simp [readLoop] at h
  | cons ev rest ih =>
    intro r e h
    rw [readLoop] at h
    by_cases hc : ctxDoneAt cancelAt ev.t
    · simp [hc] at h
      exact Or.inl h.symm
    · simp only [hc, if_false, Bool.false_eq_true] at h
      match huerr : ev.uerr with
      | none =>
        simp only [huerr] at h
        rcases ih _ _ h with h1 | ⟨ev2, hmem, hev2⟩
        · exact Or.inl h1
        · exact Or.inr ⟨ev2, List.mem_cons_of_mem _ hmem, hev2⟩
      | some Err.eof => simp [huerr] at h
      | some Err.notFound | some Err.ioErr | some Err.tooSlow
      | some Err.cancelled =>
        simp only [huerr, Option.some.injEq, Except.error.injEq] at h
        exact Or.inr ⟨ev, List.mem_cons_self ev rest, by rw [huerr, h]⟩

/-- If at every read past the measurement window the cumulative average
rate is still at least the minimum, the guarded loop never signals
`ErrTooSlow`. -/
theorem readLoop_no_tooSlow_of_fast (cancelAt : Option ℚ) :
    ∀ (es : List SrcEvent) (r : HedgingReader),
      WFTrace es →
      (∀ (k : ℕ) (hk : k < es.length), r.checkTime ≤ (es.get ⟨k, hk⟩).t →
        r.minSpeed ≤
          speedMbps (r.bytesRead + sumN (es.take (k + 1))) (es.get ⟨k, hk⟩).t) →
      readLoop true cancelAt r es ≠ some (.error .tooSlow) := by
  intro es
  induction es with
  | nil => intro r _ _ h; simp [readLoop] at h
  | cons ev rest ih =>
    intro r hwf hfast h
    rw [readLoop] at h
    by_cases hc : ctxDoneAt cancelAt ev.t
    · simp [hc] at h
    · simp only [hc, if_false, Bool.false_eq_true, if_true] at h
      have hnotslow : ¬ (r.checkTime ≤ ev.t ∧
          speedMbps (r.bytesRead + ev.n) ev.t < r.minSpeed) := by
        rintro ⟨h1, h2⟩
        have := hfast 0 (by simp) (by simpa using h1)
        simp only [List.take, sumN, List.map_cons, List.map_nil] at this
        simp only [List.get] at this
        exact absurd h2 (not_lt.mpr (by simpa [sumN] using this))
      rw [HedgingReader.Read, if_neg (by simp), if_neg hnotslow] at h
      match huerr : ev.uerr with
      | none =>
        simp only [huerr] at h
        refine ih _ ?_ ?_ h
        · exact fun e he => hwf e (List.mem_cons_of_mem _ he)
        · intro k hk hle
          have := hfast (k + 1) (by simpa using Nat.succ_lt_succ hk) (by simpa using hle)
          simpa [sumN, Nat.add_assoc] using this
      | some Err.eof => simp [huerr] at h
      | some Err.notFound | some Err.ioErr | some Err.cancelled =>
        simp [huerr] at h
      | some Err.tooSlow =>
        exact hwf ev (List.mem_cons_self ev rest) huerr

example :
    readLoop true none ⟨0, 1, 5⟩
      [⟨1/2, 2097152, none⟩, ⟨2, 0, some .eof⟩] = some (.ok 2097152) := by
  norm_num [readLoop, HedgingReader.Read, speedMbps, ctxDoneAt]

example :
    readLoop true none ⟨0, 1, 5⟩
      [⟨1/2, 10485760, none⟩, ⟨100, 0, none⟩] = some (.error .tooSlow) := by
  norm_num [readLoop, HedgingReader.Read, speedMbps, ctxDoneAt]

/-- `getLoop` finds an item carrying the requested key. -/
theorem getLoop_key : ∀ (ll : List CacheItem) (key : String)
    (it : CacheItem) (rest : List CacheItem),
    getLoop ll key = some (it, rest) → it.Key = key := by
  intro ll
  induction ll with
  | nil => intro key it rest h; simp [getLoop] at h
  | cons a l ih =>
    intro key it rest h
    rw [getLoop] at h
    by_cases ha : a.Key = key
    · rw [if_pos ha] at h
      simp only [Option.some.injEq, Prod.mk.injEq] at h
      rw [← h.1]; exact ha
    · rw [if_neg ha] at h
      match hg : getLoop l key with
      | some (f, rest2) =>
        rw [hg] at h
        simp only [Option.some.injEq, Prod.mk.injEq] at h
        rw [← h.1]; exact ih key f rest2 hg
      | none => rw [hg] at h; exact absurd h (by simp)

/-- `getLoop` splits the list into the found element and the others, a
permutation of the original list. -/
theorem getLoop_perm : ∀ (ll : List CacheItem) (key : String)
    (it : CacheItem) (rest : List CacheItem),
    getLoop ll key = some (it, rest) → ll.Perm (it :: rest) := by
  intro ll
  induction ll with
  | nil => intro key it rest h; simp [getLoop] at h
  | cons a l ih =>
    intro key it rest h
    rw [getLoop] at h
    by_cases ha : a.Key = key
    · rw [if_pos ha] at h
      simp only [Option.some.injEq, Prod.mk.injEq] at h
      rw [← h.1, ← h.2]
    · rw [if_neg ha] at h
      match hg : getLoop l key with
      | some (f, rest2) =>
        rw [hg] at h
        simp only [Option.some.injEq, Prod.mk.injEq] at h
        rw [← h.1, ← h.2]
        exact ((ih key f rest2 hg).cons a).trans (List.Perm.swap f a rest2)
      | none => rw [hg] at h; exact absurd h (by simp)

/-- A missing key is bound to no item of the list. -/
theorem getLoop_none : ∀ (ll : List CacheItem) (key : String),
    getLoop ll key = none → ∀ it ∈ ll, it.Key ≠ key := by
  intro ll
  induction ll with
  | nil => intro key _ it hmem; simp at hmem
  | cons a l ih =>
    intro key h it hmem
    rw [getLoop] at h
    by_cases ha : a.Key = key
    · rw [if_pos ha] at h; exact absurd h (by simp)
    · rw [if_neg ha] at h
      rcases List.mem_cons.mp hmem with rfl | hmem2
      · exact ha
      · match hg : getLoop l key with
        | some (f, rest2) => rw [hg] at h; exact absurd h (by simp)
        | none => exact ih key hg it hmem2

theorem llSize_cons (a : CacheItem) (l : List CacheItem) :
    llSize (a :: l) = (a.Data.length : ℤ) + llSize l := by
  simp [llSize]

theorem llSize_reverse (l : List CacheItem) : llSize l.reverse = llSize l := by
  simp [llSize, List.sum_reverse]

theorem llSize_perm {l1 l2 : List CacheItem} (h : l1.Perm l2) :
    llSize l1 = llSize l2 := by
  unfold llSize
  exact (h.map fun it => (it.Data.length : ℤ)).sum_eq

/-- The eviction loop keeps the accounting accurate. -/
theorem evictRev_size (m : ℤ) : ∀ (l : List CacheItem) (used : ℤ),
    used = llSize l → (evictRev m used l).1 = llSize (evictRev m used l).2 := by
  intro l
  induction l with
  | nil => intro used h; simpa [evictRev, llSize] using h
  | cons it rest ih =>
    intro used h
    rw [evictRev]
    by_cases hu : used > m
    · rw [if_pos hu]
      exact ih _ (by rw [llSize_cons] at h; omega)
    · rw [if_neg hu]; exact h

/-- The eviction loop stops within budget or with an empty list. -/
theorem evictRev_le (m : ℤ) : ∀ (l : List CacheItem) (used : ℤ),
    (evictRev m used l).1 ≤ m ∨ (evictRev m used l).2 = [] := by
  intro l
  induction l with
  | nil => intro used; right; rfl
  | cons it rest ih =>
    intro used
    rw [evictRev]
    by_cases hu : used > m
    · rw [if_pos hu]; exact ih _
    · rw [if_neg hu]; left; omega

/-- The eviction loop only drops elements from the front of the reversed
list (the back of the recency order). -/
theorem evictRev_dropped (m : ℤ) : ∀ (l : List CacheItem) (used : ℤ),
    ∃ t, l = t ++ (evictRev m used l).2 := by
  intro l
  induction l with
  | nil => intro used; exact ⟨[], rfl⟩
  | cons it rest ih =>
    intro used
    rw [evictRev]
    by_cases hu : used > m
    · rw [if_pos hu]
      obtain ⟨t, ht⟩ := ih (used - it.Data.length)
      exact ⟨it :: t, by rw [List.cons_append, ← ht]⟩
    · rw [if_neg hu]; exact ⟨[], rfl⟩

/-- `evict` removes a suffix of the recency order: the surviving entries
are exactly an initial segment (the most recently used ones). -/
theorem evict_append (c : MemoryCache) :
    ∃ dropped, c.ll = c.evict.ll ++ dropped := by
  obtain ⟨t, ht⟩ :=
    evictRev_dropped c.maxBytes c.ll.reverse c.usedBytes
  refine ⟨t.reverse, ?_⟩
  have : c.ll.reverse.reverse =
      (t ++ (evictRev c.maxBytes c.usedBytes c.ll.reverse).2).reverse := by
    rw [← ht]
  simpa [MemoryCache.evict, List.reverse_append] using this

/-- After `evict` the invariant holds, provided the accounting was
accurate beforehand and the budget is nonnegative. -/
theorem evict_inv (c : MemoryCache) (hused : c.usedBytes = llSize c.ll)
    (hB : 0 ≤ c.maxBytes)
    (hnodup : (c.ll.map fun it => it.Key).Nodup) :
    CacheInv c.evict ∧ c.evict.maxBytes = c.maxBytes ∧
      ∀ it ∈ c.evict.ll, it ∈ c.ll := by
  have hs := evictRev_size c.maxBytes c.ll.reverse c.usedBytes
    (by rw [llSize_reverse]; exact hused)
  have hl := evictRev_le c.maxBytes c.ll.reverse c.usedBytes
  obtain ⟨dropped, hd⟩ := evict_append c
  have hsize : c.evict.usedBytes = llSize c.evict.ll := by
    simpa [MemoryCache.evict, llSize_reverse] using hs
  refine ⟨⟨hsize, ?_, ?_⟩, rfl, ?_⟩
  · rcases hl with h | h
    · exact h
    · rw [hsize]
      have : c.evict.ll = [] := by simp [MemoryCache.evict, h]
      rw [this]; simpa [llSize] using hB
  · have : (c.ll.map fun it => it.Key).Nodup := hnodup
    rw [hd, List.map_append] at this
    exact this.of_append_left
  · intro it hmem
    rw [hd]
    exact List.mem_append_left _ hmem

/-- A `Get` does not change the accounting and only permutes the
recency list (cache.go lines 34-43: `MoveToFront` on a hit). -/
theorem Get_perm (c : MemoryCache) (key : String) :
    (c.Get key).2.maxBytes = c.maxBytes ∧
    (c.Get key).2.usedBytes = c.usedBytes ∧
    (c.Get key).2.ll.Perm c.ll := by
  rw [MemoryCache.Get]
  match hg : getLoop c.ll key with
  | some (it, rest) =>
    exact ⟨rfl, rfl, (getLoop_perm c.ll key it rest hg).symm⟩
  | none => exact ⟨rfl, rfl, List.Perm.refl _⟩

/-- `Get` preserves the invariant and the agreement with the abstract
map. -/
theorem Get_inv (c : MemoryCache) (σ : String → Option (List ℕ))
    (key : String) (hinv : CacheInv c) (hagree : Agree c σ) :
    CacheInv (c.Get key).2 ∧ (c.Get key).2.maxBytes = c.maxBytes ∧
      Agree (c.Get key).2 σ := by
  obtain ⟨hmax, hused, hperm⟩ := Get_perm c key
  obtain ⟨h1, h2, h3⟩ := hinv
  refine ⟨⟨?_, ?_, ?_⟩, hmax, ?_⟩
  · rw [hused, llSize_perm hperm, h1]
  · rw [hused, hmax]; exact h2
  · exact ((hperm.map fun it => it.Key).nodup_iff).mpr h3
  · intro it hmem
    exact hagree it (hperm.mem_iff.mp hmem)

/-- `evict` keeps the invariant and the agreement (it only removes
entries). -/
theorem evict_ready (s : MemoryCache) (σ : String → Option (List ℕ))
    (hused : s.usedBytes = llSize s.ll) (hB : 0 ≤ s.maxBytes)
    (hnodup : (s.ll.map fun it => it.Key).Nodup) (hagree : Agree s σ) :
    CacheInv s.evict ∧ s.evict.maxBytes = s.maxBytes ∧ Agree s.evict σ := by
  obtain ⟨hi, hm, hmem⟩ := evict_inv s hused hB hnodup
  exact ⟨hi, hm, fun it h => hagree it (hmem it h)⟩

/-- `Set` preserves the invariant and updates the agreement to the
abstract map with the new binding (when the payload fits). -/
theorem Set_inv (c : MemoryCache) (σ : String → Option (List ℕ))
    (key : String) (data : List ℕ) (hB : 0 ≤ c.maxBytes)
    (hinv : CacheInv c) (hagree : Agree c σ) :
    CacheInv (c.Set key data) ∧ (c.Set key data).maxBytes = c.maxBytes ∧
      Agree (c.Set key data) (setModel c.maxBytes σ key data) := by
  obtain ⟨h1, h2, h3⟩ := hinv
  by_cases hsz : (data.length : ℤ) > c.maxBytes
  · have hset : c.Set key data = c := by
      rw [MemoryCache.Set, if_pos hsz]
    rw [hset]
    refine ⟨⟨h1, h2, h3⟩, rfl, ?_⟩
    intro it hmem
    have hcond : ¬ (key = it.Key ∧ (data.length : ℤ) ≤ c.maxBytes) := by
      rintro ⟨-, hle⟩
      omega
    simp only [setModel]
    rw [if_neg hcond]
    exact hagree it hmem
  · have hfits : (data.length : ℤ) ≤ c.maxBytes := by omega
    match hg : getLoop c.ll key with
    | some (old, rest) =>
      have hperm := getLoop_perm c.ll key old rest hg
      have hkey := getLoop_key c.ll key old rest hg
      have hnodup2 : (List.map (fun it => it.Key) (old :: rest)).Nodup :=
        ((hperm.map fun it => it.Key).nodup_iff).mp h3
      have hold_notin : old.Key ∉ rest.map fun it => it.Key :=
        (List.nodup_cons.mp hnodup2).1
      have hrest_nodup : (rest.map fun it => it.Key).Nodup :=
        (List.nodup_cons.mp hnodup2).2
      have hset : c.Set key data = MemoryCache.evict
          { c with
            ll := ⟨key, data⟩ :: rest
            usedBytes := c.usedBytes - old.Data.length + data.length } := by
        rw [MemoryCache.Set, if_neg hsz, hg]
      rw [hset]
      refine evict_ready _ _ ?_ hB ?_ ?_
      · have hsz2 : llSize c.ll = llSize (old :: rest) := llSize_perm hperm
        simp only [llSize_cons] at hsz2 ⊢
        omega
      · simp only [List.map_cons]
        refine List.nodup_cons.mpr ⟨?_, hrest_nodup⟩
        rw [← hkey]
        exact hold_notin
      · intro it hmem
        rcases List.mem_cons.mp hmem with rfl | hmem3
        · simp [setModel, hfits]
        · have hne : it.Key ≠ key := by
            intro he
            apply hold_notin
            rw [hkey, ← he]
            exact List.mem_map_of_mem _ hmem3
          have hcond : ¬ (key = it.Key ∧ (data.length : ℤ) ≤ c.maxBytes) := by
            rintro ⟨he, -⟩
            exact hne he.symm
          simp only [setModel]
          rw [if_neg hcond]
          exact hagree it (hperm.mem_iff.mpr (List.mem_cons_of_mem _ hmem3))
    | none =>
      have hmiss := getLoop_none c.ll key hg
      have hset : c.Set key data = MemoryCache.evict
          { c with
            ll := ⟨key, data⟩ :: c.ll
            usedBytes := c.usedBytes + data.length } := by
        rw [MemoryCache.Set, if_neg hsz, hg]
      rw [hset]
      refine evict_ready _ _ ?_ hB ?_ ?_
      · simp only [llSize_cons]
        omega
      · simp only [List.map_cons]
        refine List.nodup_cons.mpr ⟨?_, h3⟩
        intro hmem
        obtain ⟨it, hit, hk⟩ := List.mem_map.mp hmem
        exact hmiss it hit hk
      · intro it hmem
        rcases List.mem_cons.mp hmem with rfl | hmem3
        · simp [setModel, hfits]
        · have hcond : ¬ (key = it.Key ∧ (data.length : ℤ) ≤ c.maxBytes) := by
            rintro ⟨he, -⟩
            exact hmiss it hmem3 he.symm
          simp only [setModel]
          rw [if_neg hcond]
          exact hagree it hmem3

/-- Running any operation sequence from an invariant-satisfying state
keeps the invariant and tracks the abstract map. -/
theorem runOps_sound (B : ℤ) (hB : 0 ≤ B) :
    ∀ (ops : List CacheOp) (c : MemoryCache)
      (σ : String → Option (List ℕ)),
      c.maxBytes = B → CacheInv c → Agree c σ →
      CacheInv (runOps c ops) ∧ (runOps c ops).maxBytes = B ∧
        Agree (runOps c ops) (runModel B σ ops) := by
  intro ops
  induction ops with
  | nil => intro c σ hmax hinv hagree; exact ⟨hinv, hmax, hagree⟩
  | cons op rest ih =>
    intro c σ hmax hinv hagree
    match op with
    | .get k =>
      obtain ⟨hinv2, hmax2, hagree2⟩ := Get_inv c σ k hinv hagree
      exact ih (c.Get k).2 σ (by rw [hmax2, hmax]) hinv2 hagree2
    | .set k d =>
      obtain ⟨hinv2, hmax2, hagree2⟩ :=
        Set_inv c σ k d (by rw [hmax]; exact hB) hinv hagree
      rw [hmax] at hagree2
      exact ih (c.Set k d) (setModel B σ k d) (by rw [hmax2, hmax]) hinv2 hagree2

/-- `runModel` computes the most recent within-budget `set`. -/
theorem runModel_lastFittingSet (B : ℤ) :
    ∀ (ops : List CacheOp) (σ : String → Option (List ℕ)) (k : String),
      runModel B σ ops k =
        match lastFittingSet B ops k with
        | some d => some d
        | none => σ k := by
  intro ops
  induction ops with
  | nil => intro σ k; rfl
  | cons op rest ih =>
    intro σ k
    match op with
    | .get k2 =>
      rw [runModel, lastFittingSet, ih]
      match lastFittingSet B rest k with
      | some d => rfl
      | none => rfl
    | .set k2 d =>
      rw [runModel, lastFittingSet, ih]
      match lastFittingSet B rest k with
      | some d2 => rfl
      | none =>
        rw [setModel]
        by_cases hc : k2 = k ∧ (d.length : ℤ) ≤ B
        · rw [if_pos hc, if_pos hc]
        · rw [if_neg hc, if_neg hc]

example :
    runOps (NewMemoryCache 10)
      [.set "A" [1, 1, 1, 1, 1], .set "B" [2, 2, 2, 2, 2],
       .set "C" [3, 3, 3, 3, 3]] =
    ⟨10, 10, [⟨"C", [3, 3, 3, 3, 3]⟩, ⟨"B", [2, 2, 2, 2, 2]⟩]⟩ := by
  decide

/-- C7: a `Set` whose payload exceeds the budget is a total no-op: the
cache value (entries, recency order, used bytes, budget) is unchanged
and no error is possible (cache.go lines 47-51). -/
theorem oversize_set_is_noop (c : MemoryCache) (key : String)
    (data : List ℕ) (h : (data.length : ℤ) > c.maxBytes) :
    c.Set key data = c := by
  rw [MemoryCache.Set, if_pos h]

/-- Witness for `oversize_set_is_noop` at a concrete cache and payload. -/
theorem oversize_set_is_noop_witness :
    MemoryCache.Set ⟨2, 0, []⟩ "a" [1, 1, 1] = ⟨2, 0, []⟩ :=
  oversize_set_is_noop ⟨2, 0, []⟩ "a" [1, 1, 1] (by decide)

/-- C5 counterexample: the claim as stated fails on the code in two
ways.  With budget 10, `Set "a"` with a 3-byte payload and then
`Set "a"` with an 11-byte payload leaves the 3-byte entry retained
although the most recent Set for "a" carried the 11-byte payload (the
oversize Set is a no-op, cache.go line 49).  And with the budget -1
(a legal `int64` value for `NewMemoryCache`), used bytes (0) exceed the
budget after a completed operation. -/
theorem cache_claim_as_stated_fails :
    (runOps (NewMemoryCache 10)
        [.set "a" [7, 7, 7],
         .set "a" [9, 9, 9, 9, 9, 9, 9, 9, 9, 9, 9]]).ll =
      [⟨"a", [7, 7, 7]⟩] ∧
    lastSet
        [.set "a" [7, 7, 7], .set "a" [9, 9, 9, 9, 9, 9, 9, 9, 9, 9, 9]]
        "a" = some [9, 9, 9, 9, 9, 9, 9, 9, 9, 9, 9] ∧
    lastSet
        [.set "a" [7, 7, 7], .set "a" [9, 9, 9, 9, 9, 9, 9, 9, 9, 9, 9]]
        "a" ≠ some [7, 7, 7] ∧
    ¬ ((runOps (NewMemoryCache (-1)) [.set "a" []]).usedBytes ≤
        (runOps (NewMemoryCache (-1)) [.set "a" []]).maxBytes) := by
  decide

/-- C5 (amended): for every nonnegative budget and operation sequence
run to completion from a fresh cache, the state invariant holds after
every operation — used bytes equal the sum of the retained sizes, used
bytes stay within the budget, the recency order carries each indexed key
exactly once — and every retained entry's key/value matches its most
recent within-budget `Set` (oversize `Set`s are deliberate no-ops and do
not rebind the key). -/
theorem cache_invariant_holds (B : ℤ) (hB : 0 ≤ B) (ops : List CacheOp) :
    CacheInv (runOps (NewMemoryCache B) ops) ∧
    ∀ it ∈ (runOps (NewMemoryCache B) ops).ll,
      lastFittingSet B ops it.Key = some it.Data := by
  obtain ⟨hinv, hmax, hagree⟩ :=
    runOps_sound B hB ops (NewMemoryCache B) (fun _ => none) rfl
      ⟨rfl, by simpa [NewMemoryCache, llSize] using hB,
        by simp [NewMemoryCache]⟩
      (by intro it h; simp [NewMemoryCache] at h)
  refine ⟨hinv, ?_⟩
  intro it hmem
  have hval := hagree it hmem
  rw [runModel_lastFittingSet] at hval
  match hls : lastFittingSet B ops it.Key with
  | some d =>
    rw [hls] at hval
    exact hval
  | none => rw [hls] at hval; exact absurd hval (by simp)

/-- Witness for `cache_invariant_holds` at budget 10 and a short
operation sequence. -/
theorem cache_invariant_holds_witness :
    CacheInv (runOps (NewMemoryCache 10) [.set "k" [1, 2], .get "k"]) ∧
    ∀ it ∈ (runOps (NewMemoryCache 10) [.set "k" [1, 2], .get "k"]).ll,
      lastFittingSet 10 [.set "k" [1, 2], .get "k"] it.Key =
        some it.Data :=
  cache_invariant_holds 10 (by decide) [.set "k" [1, 2], .get "k"]

/-- C6: eviction removes entries strictly from the least-recently-used
end (the survivors are an initial segment of the recency order), a `Get`
hit moves the entry to the most-recently-used position while only
permuting the list, and the concrete scenario holds: after inserting A,
B, C (5 bytes each, budget 10 — C's insert already evicted A), a `Get`
of A (a miss) and the insert of D evict exactly B, not A. -/
theorem lru_eviction_order :
    (∀ c : MemoryCache, ∃ dropped, c.ll = c.evict.ll ++ dropped) ∧
    (∀ (c : MemoryCache) (key : String) (d : List ℕ),
      (c.Get key).1 = some d →
      ∃ rest, (c.Get key).2.ll = ⟨key, d⟩ :: rest ∧
        c.ll.Perm (⟨key, d⟩ :: rest)) ∧
    (runOps (NewMemoryCache 10)
        [.set "A" [1, 1, 1, 1, 1], .set "B" [2, 2, 2, 2, 2],
         .set "C" [3, 3, 3, 3, 3], .get "A"] =
      ⟨10, 10, [⟨"C", [3, 3, 3, 3, 3]⟩, ⟨"B", [2, 2, 2, 2, 2]⟩]⟩ ∧
    MemoryCache.Set
        ⟨10, 10, [⟨"C", [3, 3, 3, 3, 3]⟩, ⟨"B", [2, 2, 2, 2, 2]⟩]⟩
        "D" [4, 4, 4, 4, 4] =
      ⟨10, 10, [⟨"D", [4, 4, 4, 4, 4]⟩, ⟨"C", [3, 3, 3, 3, 3]⟩]⟩) := by
  refine ⟨evict_append, ?_, by decide⟩
  intro c key d h
  rw [MemoryCache.Get] at h ⊢
  match hg : getLoop c.ll key with
  | none =>
    rw [hg] at h
    exact absurd h (by simp)
  | some (it, rest) =>
    rw [hg] at h
    have hd : it.Data = d := by simpa using h
    have hk := getLoop_key c.ll key it rest hg
    have hit : it = ⟨key, d⟩ := by
      cases it with
      | mk k0 d0 =>
        simp only [CacheItem.mk.injEq]
        exact ⟨hk, hd⟩
    refine ⟨rest, ?_, ?_⟩
    · show it :: rest = ⟨key, d⟩ :: rest
      rw [hit]
    · rw [← hit]
      exact getLoop_perm c.ll key it rest hg

/-- Witness for `lru_eviction_order`: its `Get`-hit clause at a concrete
two-entry cache. -/
theorem lru_eviction_order_witness :
    ∃ rest,
      ((⟨10, 4, [⟨"B", [2, 2]⟩, ⟨"A", [1, 1]⟩]⟩ : MemoryCache).Get
          "A").2.ll = ⟨"A", [1, 1]⟩ :: rest ∧
      ([⟨"B", [2, 2]⟩, ⟨"A", [1, 1]⟩] : List CacheItem).Perm
        (⟨"A", [1, 1]⟩ :: rest) :=
  lru_eviction_order.2.1 ⟨10, 4, [⟨"B", [2, 2]⟩, ⟨"A", [1, 1]⟩]⟩ "A"
    [1, 1] (by decide)

/-- C1 (code bug): the spec and the project README promise that the
coalesced physical fetch is detached from the initiating caller's
cancellation, but `ServeHTTP` (cache.go lines 147-150) passes the
initiating request's context `r.Context()` into `readHedged`, and both
the read loop and the `HedgingReader` abort once that context is
cancelled.  Left undisturbed, the healthy source `srcOK` completes at
elapsed time 2 and every waiter receives the 2 MiB payload; cancelling
the initiating caller at time 1 aborts the shared fetch and delivers the
cancellation error to every waiter, not only to the cancelled one. -/
theorem coalesced_fetch_not_detached :
    coalescedFetch none 1 5 (1/10) srcOK srcOK 2 =
      [some (.ok 2097152), some (.ok 2097152)] ∧
    coalescedFetch (some 1) 1 5 (1/10) srcOK srcOK 2 =
      [some (.error .cancelled), some (.error .cancelled)] := by
  constructor <;>
    norm_num [coalescedFetch, readHedged, doRead, readLoop,
      HedgingReader.Read, speedMbps, ctxDoneAt, srcOK, List.replicate]

/-- C2 counterexample: a source that delivered 10 MiB within the first
half second — 80 Mbps averaged over the whole 1-second measurement
window, far above the 5 Mbps minimum — still trips the threshold on a
read call at elapsed time 100, where the cumulative average has fallen
to 0.8 Mbps, even though that read reports end-of-data.  The rate
judgment divides by the total elapsed time, not by the measurement
window. -/
theorem fast_start_still_trips :
    (5 : ℚ) ≤ speedMbps 10485760 1 ∧
    readLoop true none ⟨0, 1, 5⟩
      [⟨1/2, 10485760, none⟩, ⟨100, 0, some .eof⟩] =
      some (.error .tooSlow) := by
  constructor
  · norm_num [speedMbps]
  · norm_num [readLoop, HedgingReader.Read, speedMbps, ctxDoneAt]

/-- C2 (amended): the recurring check past the window judges the
cumulative average over the total elapsed time.  A session whose
cumulative average stays at or above the minimum on every read past the
window never trips the too-slow threshold; delivering enough bytes
within the window alone does not protect the session
(`fast_start_still_trips`). -/
theorem gated_reader_no_abort_of_sustained_rate (cancelAt : Option ℚ)
    (checkTime minSpeed : ℚ) (es : List SrcEvent) (hwf : WFTrace es)
    (hfast : ∀ (k : ℕ) (hk : k < es.length),
      checkTime ≤ (es.get ⟨k, hk⟩).t →
      minSpeed ≤ speedMbps (sumN (es.take (k + 1))) (es.get ⟨k, hk⟩).t) :
    readLoop true cancelAt ⟨0, checkTime, minSpeed⟩ es ≠
      some (.error .tooSlow) :=
  readLoop_no_tooSlow_of_fast cancelAt es ⟨0, checkTime, minSpeed⟩ hwf
    (by intro k hk hle; simpa using hfast k hk hle)

/-- Witness for `gated_reader_no_abort_of_sustained_rate` on a source
that sustains 40 Mbps. -/
theorem gated_reader_no_abort_of_sustained_rate_witness :
    readLoop true none ⟨0, 1, 5⟩ [⟨2, 10485760, some .eof⟩] ≠
      some (.error .tooSlow) := by
  refine gated_reader_no_abort_of_sustained_rate none 1 5
    [⟨2, 10485760, some .eof⟩] (by decide) ?_
  intro k hk
  rcases k with _ | k
  · intro hle
    show (5 : ℚ) ≤ speedMbps (sumN [⟨2, 10485760, some .eof⟩]) 2
    norm_num [sumN, speedMbps]
  · exact absurd hk (by simp)

/-- C3: the orchestrator performs at most two attempts in a fixed
order.  If and only if the guarded first attempt returns `ErrTooSlow`,
it sleeps the configured hedge delay and runs exactly one unguarded
second attempt whose result (bytes or error) is final; otherwise the
first attempt's outcome is final and only one open occurs — in
particular, when the source's cumulative rate stays at or above the
minimum on every read past the window, exactly one open attempt
happens.  The action trace is always one of the two listed forms, so a
third attempt never occurs. -/
theorem hedged_two_attempt_protocol (cancelAt : Option ℚ)
    (checkTime minSpeed hedgedDelay : ℚ) (first second : Source) :
    (doRead cancelAt checkTime minSpeed true first =
        some (.error .tooSlow) →
      readHedged cancelAt checkTime minSpeed hedgedDelay first second =
        (doRead cancelAt checkTime minSpeed false second,
          [.openFirst, .sleep hedgedDelay, .openSecond])) ∧
    (doRead cancelAt checkTime minSpeed true first ≠
        some (.error .tooSlow) →
      readHedged cancelAt checkTime minSpeed hedgedDelay first second =
        (doRead cancelAt checkTime minSpeed true first, [.openFirst])) ∧
    ((readHedged cancelAt checkTime minSpeed hedgedDelay first
        second).2 = [.openFirst] ∨
      (readHedged cancelAt checkTime minSpeed hedgedDelay first
        second).2 = [.openFirst, .sleep hedgedDelay, .openSecond]) ∧
    (first.openErr = none → WFTrace first.events →
      (∀ (k : ℕ) (hk : k < first.events.length),
        checkTime ≤ (first.events.get ⟨k, hk⟩).t →
        minSpeed ≤ speedMbps (sumN (first.events.take (k + 1)))
          (first.events.get ⟨k, hk⟩).t) →
      (readHedged cancelAt checkTime minSpeed hedgedDelay first
        second).2 = [.openFirst]) := by
  have h1 : doRead cancelAt checkTime minSpeed true first =
      some (.error .tooSlow) →
      readHedged cancelAt checkTime minSpeed hedgedDelay first second =
        (doRead cancelAt checkTime minSpeed false second,
          [.openFirst, .sleep hedgedDelay, .openSecond]) := by
    intro h
    rw [readHedged, h]
  have h2 : doRead cancelAt checkTime minSpeed true first ≠
      some (.error .tooSlow) →
      readHedged cancelAt checkTime minSpeed hedgedDelay first second =
        (doRead cancelAt checkTime minSpeed true first, [.openFirst]) := by
    intro hne
    rw [readHedged]
    match hr : doRead cancelAt checkTime minSpeed true first with
    | none => rfl
    | some (.ok v) => rfl
    | some (.error .eof) => rfl
    | some (.error .notFound) => rfl
    | some (.error .ioErr) => rfl
    | some (.error .cancelled) => rfl
    | some (.error .tooSlow) => exact absurd hr hne
  refine ⟨h1, h2, ?_, ?_⟩
  · by_cases hr : doRead cancelAt checkTime minSpeed true first =
        some (.error .tooSlow)
    · right
      rw [h1 hr]
    · left
      rw [h2 hr]
  · intro hopen hwf hfast
    have hne : doRead cancelAt checkTime minSpeed true first ≠
        some (.error .tooSlow) := by
      rw [doRead, hopen]
      exact readLoop_no_tooSlow_of_fast cancelAt first.events
        ⟨0, checkTime, minSpeed⟩ hwf
        (by intro k hk hle; simpa using hfast k hk hle)
    rw [h2 hne]

/-- Witness for `hedged_two_attempt_protocol`: its single-open clause on
a source sustaining 40 Mbps. -/
theorem hedged_two_attempt_protocol_witness :
    (readHedged none 1 5 (1/10)
      ⟨none, [⟨2, 10485760, some .eof⟩]⟩ srcOK).2 = [.openFirst] := by
  refine (hedged_two_attempt_protocol none 1 5 (1/10)
    ⟨none, [⟨2, 10485760, some .eof⟩]⟩ srcOK).2.2.2 rfl (by decide) ?_
  intro k hk
  rcases k with _ | k
  · intro hle
    show (5 : ℚ) ≤ speedMbps (sumN [⟨2, 10485760, some .eof⟩]) 2
    norm_num [sumN, speedMbps]
  · exact absurd hk (by simp)

/-- C4: the `ErrTooSlow` signal is fully absorbed by `readHedged` — with
a real second source (one that never fabricates the sentinel itself) the
orchestrator's result is never `ErrTooSlow` — while a failure to open
the source on the guarded attempt (not found / permission / I/O error)
is returned immediately, with no sleep and no second attempt. -/
theorem tooSlow_absorbed_open_failure_immediate (cancelAt : Option ℚ)
    (checkTime minSpeed hedgedDelay : ℚ) (first second : Source) :
    (∀ e : Err, first.openErr = some e → e ≠ .tooSlow →
      readHedged cancelAt checkTime minSpeed hedgedDelay first second =
        (some (.error e), [.openFirst])) ∧
    (second.openErr ≠ some .tooSlow → WFTrace second.events →
      (readHedged cancelAt checkTime minSpeed hedgedDelay first
        second).1 ≠ some (.error .tooSlow)) := by
  constructor
  · intro e hopen hne
    have hdo : doRead cancelAt checkTime minSpeed true first =
        some (.error e) := by
      rw [doRead, hopen]
    rw [readHedged, hdo]
    cases e
    case tooSlow => exact absurd rfl hne
    all_goals rfl
  · intro hopen2 hwf2
    by_cases hr : doRead cancelAt checkTime minSpeed true first =
        some (.error .tooSlow)
    · rw [readHedged, hr]
      show doRead cancelAt checkTime minSpeed false second ≠
        some (.error .tooSlow)
      rw [doRead]
      match hs : second.openErr with
      | some e2 =>
        intro hcon
        simp only [Option.some.injEq, Except.error.injEq] at hcon
        exact hopen2 (by rw [hs, hcon])
      | none =>
        intro hcon
        rcases readLoop_unguarded_error cancelAt second.events
            ⟨0, checkTime, minSpeed⟩ .tooSlow hcon with h | ⟨ev, hmem, hev⟩
        · exact Err.noConfusion h
        · exact hwf2 ev hmem hev
    · have hfirst : (readHedged cancelAt checkTime minSpeed hedgedDelay
          first second).1 = doRead cancelAt checkTime minSpeed true first := by
        rw [readHedged]
        match hrr : doRead cancelAt checkTime minSpeed true first with
        | none => rfl
        | some (.ok v) => rfl
        | some (.error .eof) => rfl
        | some (.error .notFound) => rfl
        | some (.error .ioErr) => rfl
        | some (.error .cancelled) => rfl
        | some (.error .tooSlow) => exact absurd hrr hr
      rw [hfirst]
      exact hr

/-- Witness for `tooSlow_absorbed_open_failure_immediate`: a guarded
attempt whose open fails with "not found" is returned at once, with a
single open attempt and no hedge. -/
theorem tooSlow_absorbed_open_failure_immediate_witness :
    readHedged none 1 5 (1/10) ⟨some .notFound, []⟩ srcOK =
      (some (.error .notFound), [.openFirst]) :=
  (tooSlow_absorbed_open_failure_immediate none 1 5 (1/10)
    ⟨some .notFound, []⟩ srcOK).1 .notFound rfl (by decide)

/-- C8: on a read call past the measurement window the reader's speed
value is exactly the spec's `(cumulative_bytes * 8) / elapsed_seconds`
normalized by `1024 * 1024` into the Mbps unit of the configured
minimum, and when it falls below the minimum the call returns this
call's byte count together with the too-slow error (and the cumulative
byte state including this call's bytes). -/
theorem gated_reader_speed_check (r : HedgingReader) (n : ℕ)
    (uerr : Option Err) (t : ℚ) (hwin : r.checkTime ≤ t)
    (hslow : speedMbps (r.bytesRead + n) t < r.minSpeed) :
    (∀ (b : ℕ) (u : ℚ),
      speedMbps b u = (((b : ℚ) * 8) / u) / (1024 * 1024)) ∧
    r.Read false n uerr t =
      ((n, some .tooSlow), ⟨r.bytesRead + n, r.checkTime, r.minSpeed⟩) := by
  constructor
  · intro b u
    rw [speedMbps, div_div, mul_comm u (1024 * 1024)]
  · simp only [HedgingReader.Read, Bool.false_eq_true, if_false]
    rw [if_pos ⟨hwin, hslow⟩]

/-- Witness for `gated_reader_speed_check`: 1 KiB in 2 seconds is far
below 5 Mbps, so the call reports its bytes with the too-slow error. -/
theorem gated_reader_speed_check_witness :
    HedgingReader.Read ⟨0, 1, 5⟩ false 1024 none 2 =
      ((1024, some .tooSlow), ⟨1024, 1, 5⟩) :=
  (gated_reader_speed_check ⟨0, 1, 5⟩ 1024 none 2 (by norm_num)
    (by norm_num [speedMbps])).2

/-- C9: a source whose end-of-data arrives before the measurement window
has elapsed never makes the gated reader return the too-slow abort on
any read of that session: every read up to the `io.EOF` read happens
with `elapsed < checkTime`, so the speed check never runs, and the loop
stops at the `io.EOF` read. -/
theorem short_source_never_aborts (cancelAt : Option ℚ) :
    ∀ (es : List SrcEvent) (r : HedgingReader) (k : ℕ) (hk : k < es.length),
      (es.get ⟨k, hk⟩).uerr = some .eof → WFTrace es →
      (∀ (i : ℕ) (hi : i < es.length), i ≤ k →
        (es.get ⟨i, hi⟩).t < r.checkTime) →
      readLoop true cancelAt r es ≠ some (.error .tooSlow) := by
  intro es
  induction es with
  | nil => intro r k hk; exact absurd hk (by simp)
  | cons ev rest ih =>
    intro r k hk heof hwf hshort h
    rw [readLoop] at h
    by_cases hc : ctxDoneAt cancelAt ev.t
    · simp [hc] at h
    · simp only [hc, Bool.false_eq_true, if_false, if_true] at h
      have ht0 : ev.t < r.checkTime := by
        have := hshort 0 (by simp) (Nat.zero_le k)
        simpa using this
      have hcond : ¬ (r.checkTime ≤ ev.t ∧
          speedMbps (r.bytesRead + ev.n) ev.t < r.minSpeed) := by
        rintro ⟨h1, -⟩
        exact absurd h1 (not_le.mpr ht0)
      rw [HedgingReader.Read, if_neg (by simp), if_neg hcond] at h
      match huerr : ev.uerr with
      | none =>
        simp only [huerr] at h
        match k with
        | 0 =>
          have : ev.uerr = some Err.eof := heof
          rw [huerr] at this
          exact Option.noConfusion this
        | k2 + 1 =>
          refine ih _ k2 (by simpa using Nat.lt_of_succ_lt_succ hk) ?_ ?_ ?_ h
          · exact heof
          · exact fun e he => hwf e (List.mem_cons_of_mem _ he)
          · intro i hi hile
            have := hshort (i + 1) (by simpa using Nat.succ_lt_succ hi)
              (Nat.succ_le_succ hile)
            simpa using this
      | some Err.eof => simp [huerr] at h
      | some Err.notFound | some Err.ioErr | some Err.cancelled =>
        simp [huerr] at h
      | some Err.tooSlow =>
        exact hwf ev (List.mem_cons_self ev rest) huerr

/-- Witness for `short_source_never_aborts`: a two-read session that
hits end-of-data at elapsed time 1/2, before the 1-second window. -/
theorem short_source_never_aborts_witness :
    readLoop true none ⟨0, 1, 5⟩
      [⟨1/4, 3, none⟩, ⟨1/2, 2, some .eof⟩] ≠
      some (.error .tooSlow) := by
  refine short_source_never_aborts none
    [⟨1/4, 3, none⟩, ⟨1/2, 2, some .eof⟩] ⟨0, 1, 5⟩ 1 (by decide)
    (by decide) (by decide) ?_
  intro i hi hile
  rcases i with _ | _ | i
  · show (1 : ℚ)/4 < 1
    norm_num
  · show (1 : ℚ)/2 < 1
    norm_num
  · exact absurd hi (by simp)

/-- C10 (implicit): once the window has elapsed and the measured rate is
below the minimum, the too-slow error replaces whatever status the
underlying read just reported — for every underlying outcome `uerr`
(including `io.EOF` and an I/O error) the call returns `ErrTooSlow`, the
read loop of the attempt terminates with `ErrTooSlow` even when that
read reached end-of-data, and the orchestrator thereupon discards the
first attempt's outcome and hedges, taking the unguarded second
attempt's result as final. -/
theorem tooSlow_masks_underlying_status (r : HedgingReader)
    (cancelAt : Option ℚ) (e : SrcEvent) (rest : List SrcEvent)
    (checkTime minSpeed hedgedDelay : ℚ) (first second : Source)
    (hctx : ctxDoneAt cancelAt e.t = false)
    (hwin : r.checkTime ≤ e.t)
    (hslow : speedMbps (r.bytesRead + e.n) e.t < r.minSpeed) :
    (∀ uerr : Option Err,
      (r.Read false e.n uerr e.t).1.2 = some .tooSlow) ∧
    readLoop true cancelAt r (e :: rest) = some (.error .tooSlow) ∧
    (doRead cancelAt checkTime minSpeed true first =
        some (.error .tooSlow) →
      readHedged cancelAt checkTime minSpeed hedgedDelay first second =
        (doRead cancelAt checkTime minSpeed false second,
          [.openFirst, .sleep hedgedDelay, .openSecond])) := by
  refine ⟨?_, ?_, ?_⟩
  · intro uerr
    simp only [HedgingReader.Read, Bool.false_eq_true, if_false]
    rw [if_pos ⟨hwin, hslow⟩]
  · rw [readLoop]
    rw [if_neg (by rw [hctx]; exact Bool.false_ne_true)]
    have hstep : HedgingReader.Read r false e.n e.uerr e.t =
        ((e.n, some .tooSlow),
          ⟨r.bytesRead + e.n, r.checkTime, r.minSpeed⟩) := by
      simp only [HedgingReader.Read, Bool.false_eq_true, if_false]
      rw [if_pos ⟨hwin, hslow⟩]
    rw [if_pos rfl, hstep]
  · intro h
    rw [readHedged, h]

/-- Witness for `tooSlow_masks_underlying_status`: a read that reaches
end-of-data at elapsed time 2 with only 1 KiB delivered is reported as
too slow, not as a completed read. -/
theorem tooSlow_masks_underlying_status_witness :
    readLoop true none ⟨0, 1, 5⟩ [⟨2, 1024, some .eof⟩] =
      some (.error .tooSlow) :=
  (tooSlow_masks_underlying_status ⟨0, 1, 5⟩ none ⟨2, 1024, some .eof⟩ []
    1 5 (1/10) srcOK srcOK rfl (by norm_num)
    (by norm_num [speedMbps])).2.1
